import Mathlib

/-!
# Verification of the cxlint Resource Model / Flow Graph Analyzer / Rule Engine

A shallow embedding of the core of the `cxlint` conversational-agent linter:

* `graph.py` — the directed-graph primitive (`Graph`);
* `resources/flows.py` — graph wiring (`set_route_targets`), the depth-first
  traversal (`recurse_edges`) and the three analysis passes
  (`find_unused_pages`, `find_dangling_pages`, `find_orphaned_pages`);
* `common.py` — `calculate_rating`;
* `rules/intents.py`, `rules/response_messages.py`, `rules/test_cases.py` —
  the linter rules under study;
* `resources/intents.py`, `resources/test_cases.py` — the loader fragments the
  rules depend on.

Python sets are modelled as `Finset String`, dicts of edge lists as ordered
association lists of pairs, machine integers as `Nat`, and the float
arithmetic of `calculate_rating` as exact rational arithmetic over `ℚ`.
The unbounded Python recursion of `recurse_edges` is made total with an
explicit fuel parameter; a stabilisation theorem shows the fuel bound
`(number of edge targets) + 1` is always sufficient, which is the formal
content of the traversal's termination argument.
-/

namespace Cxlint

/-- Page / node names are plain strings, as in the Python source. -/
abbrev Node := String

/-! ## Character-list string utilities

Python's `in` operator on strings (substring containment) and `str.lower`
are modelled on the underlying character lists. -/

/-- `isPrefixL n h` is true when the character list `n` is a prefix of `h`. -/
def isPrefixL : List Char → List Char → Bool
  | [], _ => true
  | _ :: _, [] => false
  | a :: as, b :: bs => a == b && isPrefixL as bs

/-- `infixL n h` is true when `n` occurs as a contiguous infix of `h`. -/
def infixL (needle : List Char) : List Char → Bool
  | [] => isPrefixL needle []
  | hay@(_ :: rest) => isPrefixL needle hay || infixL needle rest

/-- Python `needle in hay` for strings: substring containment. -/
def strContains (hay needle : String) : Bool :=
  infixL needle.data hay.data

/-- Python `str.lower`, character by character. -/
def strLower (s : String) : String :=
  ⟨s.data.map Char.toLower⟩

/-! ## `LintStats` (`common.py` / `resources/types.py`)

The mutable counter record threaded through every linter pass.  Only the
counters exercised by the claims are kept. -/

structure LintStats where
  total_issues : Nat
  total_inspected : Nat
  total_flows : Nat
  total_pages : Nat
  total_intents : Nat
  total_test_cases : Nat
  deriving DecidableEq, Repr

/-- A fresh `LintStats()` instance: every counter starts at zero. -/
def LintStats.init : LintStats := ⟨0, 0, 0, 0, 0, 0⟩

/-! ## `Common.calculate_rating` (`common.py`)

```python
if total_inspected > 0:
    rating = (1 - (total_issues / total_inspected)) * 10
else:
    rating = 10
```

The Python float arithmetic is modelled exactly over `ℚ`. -/

def calculate_rating (total_issues total_inspected : Nat) : ℚ :=
  if 0 < total_inspected then
    (1 - ((total_issues : ℚ) / (total_inspected : ℚ))) * 10
  else
    10

/-! ## `Graph` (`graph.py`)

```python
self._nodes = set()
self._edges = collections.defaultdict(list)
self._used_nodes = set()
```

The `_edges` dict maps a source node to the ordered list of its targets;
`add_edge` appends to that list.  It is modelled as the ordered list of
`(source, target)` pairs in insertion order: a node is a dict key exactly
when it occurs as a first component (`remove_edge` is never called by the
flow pipeline), and its per-key target list is the ordered sublist of
second components. -/

structure Graph where
  nodes : Finset Node
  edges : List (Node × Node)
  used_nodes : Finset Node
  deriving DecidableEq

def Graph.empty : Graph := ⟨∅, [], ∅⟩

/-- `Graph.add_node`. -/
def Graph.add_node (g : Graph) (n : Node) : Graph :=
  { g with nodes := insert n g.nodes }

/-- `Graph.add_edge`: `self._edges[node1].append(node2)`. -/
def Graph.add_edge (g : Graph) (a b : Node) : Graph :=
  { g with edges := g.edges ++ [(a, b)] }

/-- `Graph.add_used_node`. -/
def Graph.add_used_node (g : Graph) (n : Node) : Graph :=
  { g with used_nodes := insert n g.used_nodes }

/-- Python `page in edges` (dict-key membership) for the edge model. -/
def hasKeyE (E : List (Node × Node)) (p : Node) : Bool :=
  E.any (fun e => e.1 == p)

/-- Python `edges[page]`: the ordered target list of key `page`. -/
def succsE (E : List (Node × Node)) (p : Node) : List Node :=
  (E.filter (fun e => e.1 == p)).map (fun e => e.2)

/-- The set of all edge targets; every node the traversal can newly visit
lies in this set, so its cardinality bounds the recursion depth. -/
def targetsF (E : List (Node × Node)) : Finset Node :=
  (E.map (fun e => e.2)).toFinset

/-! ## `Flows.recurse_edges` (`resources/flows.py`, lines 250–273)

```python
def recurse_edges(self, edges, page, dangling, visited):
    if page in edges:
        for inner_page in edges[page]:
            if inner_page not in visited:
                visited.add(inner_page)
                dangling, visited = self.recurse_edges(
                    edges, inner_page, dangling, visited)
    else:
        dangling.add(page)
    return dangling, visited
```

The recursion is made total with a fuel parameter consumed once per nested
descent; `recurse_edges_fuel_stable` below shows the results agree for all
fuels from `targetsF.card + 1` on, so the fuelled limit is the Python
semantics.  The `for` loop threading `(dangling, visited)` through the
successor list is `recurse_list_go`. -/

def recurse_list_go
    (f : Node → Finset Node → Finset Node → Finset Node × Finset Node) :
    List Node → Finset Node → Finset Node → Finset Node × Finset Node
  | [], d, v => (d, v)
  | s :: rest, d, v =>
    if s ∈ v then recurse_list_go f rest d v
    else
      let r := f s d (insert s v)
      recurse_list_go f rest r.1 r.2

def recurse_edges (E : List (Node × Node)) :
    Nat → Node → Finset Node → Finset Node → Finset Node × Finset Node
  | 0, _, d, v => (d, v)
  | Nat.succ f, page, d, v =>
    if hasKeyE E page then
      recurse_list_go (recurse_edges E f) (succsE E page) d v
    else
      (insert page d, v)

/-- Sufficient fuel for a complete traversal of `E` starting from a visited
set `v`: one unit per not-yet-visited potential target, plus one for the
root call. -/
def dfsFuelFrom (E : List (Node × Node)) (v : Finset Node) : Nat :=
  (targetsF E \ v).card + 1

/-! ## The `Flow` record and the three analysis passes
(`resources/flows.py`, lines 13–30 and 184–304) -/

structure Flow where
  all_pages : Finset Node
  active_pages : Finset Node
  dangling_pages : Finset Node
  orphaned_pages : Finset Node
  unused_pages : Finset Node
  graph : Graph
  deriving DecidableEq

/-- `self.special_pages` from `Flows.__init__`. -/
def specialPagesList : List Node :=
  ["End Session", "End Flow", "Start Page", "Current Page", "Previous Page"]

/-- `set.discard` applied in sequence for every special page. -/
def discardSpecial (s : Finset Node) : Finset Node :=
  specialPagesList.foldl (fun t p => t.erase p) s

/-- `Flows.find_unused_pages`: discard special pages from `all_pages`
(mutating it), take `all_pages − used_nodes`, and split the result between
`unused_pages` (no outgoing edge key) and `orphaned_pages` (has one). -/
def find_unused_pages (flow : Flow) : Flow :=
  let all' := discardSpecial flow.all_pages
  let prelim := all' \ flow.graph.used_nodes
  { flow with
    all_pages := all'
    unused_pages := prelim.filter (fun p => hasKeyE flow.graph.edges p = false)
    orphaned_pages :=
      flow.orphaned_pages ∪
        prelim.filter (fun p => hasKeyE flow.graph.edges p = true) }

/-- `Flows.find_dangling_pages`: run the traversal from `"Start Page"`
seeding `dangling`/`visited` with the flow's current sets, then discard the
special pages from the dangling set and drop every page whose name contains
the substring `"FLOW"` (`if 'FLOW' not in page`). -/
def find_dangling_pages (flow : Flow) : Flow :=
  let r := recurse_edges flow.graph.edges
      (dfsFuelFrom flow.graph.edges flow.active_pages)
      "Start Page" flow.dangling_pages flow.active_pages
  { flow with
    active_pages := r.2
    dangling_pages :=
      (discardSpecial r.1).filter (fun p => strContains p "FLOW" = false) }

/-- `Flows.find_orphaned_pages`: add the symmetric difference of
`active_pages` and `graph._used_nodes` to `orphaned_pages`. -/
def find_orphaned_pages (flow : Flow) : Flow :=
  { flow with
    orphaned_pages :=
      flow.orphaned_pages ∪
        ((flow.active_pages \ flow.graph.used_nodes) ∪
          (flow.graph.used_nodes \ flow.active_pages)) }

/-! ## Graph wiring (`Flows.set_route_targets`, `resources/flows.py`
lines 321–342 / `resources/routes.py` lines 114–137)

```python
route.target_flow = route.data.get('targetFlow', None)
route.target_page = route.data.get('targetPage', None)
if route.target_page:
    ...add_edge(current_page, route.target_page)
    ...add_used_node(route.target_page)
if route.target_flow:
    ...add_edge(current_page, f'FLOW: {route.target_flow}')
    ...add_used_node(f'FLOW: {route.target_flow}')
```
-/

/-- One route of a page, reduced to the fields the wiring reads: the owning
page's display name and the optional `targetPage` / `targetFlow` values. -/
structure RouteData where
  source : Node
  targetPage : Option Node
  targetFlow : Option Node

/-- Python truthiness of an optional string (`if route.target_page:`):
`None` and the empty string are falsy. -/
def truthy : Option String → Option String
  | some s => if s = "" then none else some s
  | none => none

def set_route_targets (g : Graph) (r : RouteData) : Graph :=
  let g1 := match truthy r.targetPage with
    | some t => (g.add_edge r.source t).add_used_node t
    | none => g
  match truthy r.targetFlow with
  | some f => (g1.add_edge r.source ("FLOW: " ++ f)).add_used_node ("FLOW: " ++ f)
  | none => g1

/-- The cross-flow tag nodes a route list creates during wiring. -/
def flowTags (routes : List RouteData) : Finset Node :=
  (routes.filterMap (fun r => (truthy r.targetFlow).map (fun f => "FLOW: " ++ f))).toFinset

/-- A fully wired flow: `lint_start_page` adds the `"Start Page"` node,
`lint_page` adds each declared page to the graph nodes and to `all_pages`,
and every route contributes its edges via `set_route_targets` before any
analysis pass runs (the load-bearing ordering of `lint_flow`). -/
def wireFlow (pages : List Node) (routes : List RouteData) : Flow :=
  let g0 := Graph.empty.add_node "Start Page"
  let g1 := pages.foldl (fun g p => g.add_node p) g0
  let g2 := routes.foldl set_route_targets g1
  { all_pages := pages.toFinset
    active_pages := ∅
    dangling_pages := ∅
    orphaned_pages := ∅
    unused_pages := ∅
    graph := g2 }

/-- The analysis pipeline of `lint_flow`: "Order of Find Operations is
important here!" — unused, then dangling, then orphaned. -/
def analyzeFlow (f : Flow) : Flow :=
  find_orphaned_pages (find_dangling_pages (find_unused_pages f))

/-- The traversal exactly as `find_dangling_pages` launches it on a freshly
wired flow: root `"Start Page"`, empty dangling and visited sets, and the
sufficient fuel bound. -/
def dfsRun (E : List (Node × Node)) : Finset Node × Finset Node :=
  recurse_edges E (dfsFuelFrom E ∅) "Start Page" ∅ ∅

/-- The edge relation of an edge list: one walk step. -/
def EdgeRel (E : List (Node × Node)) (a b : Node) : Prop := (a, b) ∈ E

instance decEdgeRel (E : List (Node × Node)) (a b : Node) :
    Decidable (EdgeRel E a b) :=
  inferInstanceAs (Decidable ((a, b) ∈ E))

/-- Postcondition of one `recurse_edges` call on `(page, dangling, visited)`:
the visited set only grows, every successor of `page` ends up visited, every
newly visited node is fully explored (its successors are visited) and is an
edge target, and the final dangling set is characterised exactly: the old
dangling set plus every examined node (`page` itself or a newly visited
node) that has no outgoing edge. -/
def DfsPost (E : List (Node × Node)) (p : Node) (d v : Finset Node)
    (r : Finset Node × Finset Node) : Prop :=
  v ⊆ r.2 ∧
  (∀ b, (p, b) ∈ E → b ∈ r.2) ∧
  (∀ x ∈ r.2, x ∉ v → ∀ b, (x, b) ∈ E → b ∈ r.2) ∧
  (∀ x, x ∈ r.1 ↔
    x ∈ d ∨ ((x = p ∨ (x ∈ r.2 ∧ x ∉ v)) ∧ hasKeyE E x = false)) ∧
  (∀ x ∈ r.2, x ∉ v → x ∈ targetsF E)

/-- Postcondition of the successor-list loop `recurse_list_go`. -/
def ListPost (E : List (Node × Node)) (l : List Node) (d v : Finset Node)
    (r : Finset Node × Finset Node) : Prop :=
  v ⊆ r.2 ∧
  (∀ s ∈ l, s ∈ r.2) ∧
  (∀ x ∈ r.2, x ∉ v → ∀ b, (x, b) ∈ E → b ∈ r.2) ∧
  (∀ x, x ∈ r.1 ↔ x ∈ d ∨ (x ∈ r.2 ∧ x ∉ v ∧ hasKeyE E x = false)) ∧
  (∀ x ∈ r.2, x ∉ v → x ∈ targetsF E)

/-! ## The closed-choice-alternative rule of `ResponseMessageRules`
(`rules/response_messages.py`, lines 37–63), here named
`closed_choice_alternative_rule`

```python
pattern = r"^(What|Where|When|Who|Why|How|Would) (.*) or (.*)\?$"
match = re.search(pattern, route.text, flags=re.IGNORECASE)
if match:
    ...
    stats.total_issues += 1
    self.log.generic_logger(resource, rule, message)
```

The anchored case-insensitive regular expression is modelled by its match
semantics: the text consists of one of the alternation words, a space, a
newline-free group, the literal `" or "`, a newline-free group and a final
`"?"` (a single trailing newline after the `"?"` is also accepted, matching
the behaviour of `$` in a non-MULTILINE Python pattern).  Case-insensitivity
is modelled by lowercasing the text first; the alternation words and
`" or "` are already lowercase. -/

def whWordsCC : List String :=
  ["what", "where", "when", "who", "why", "how", "would"]

/-- The `(.*)\?$` tail: a newline-free group followed by `?`, optionally
followed by one final newline (which `$` tolerates). -/
def qmarkTail (m : List Char) : Bool :=
  match m.reverse with
  | '\n' :: '?' :: b => b.all (fun c => c != '\n')
  | '?' :: b => b.all (fun c => c != '\n')
  | _ => false

/-- Does the list start with the literal `" or "` followed by a
`(.*)\?$` tail? -/
def ccAfterOr (l : List Char) : Bool :=
  isPrefixL " or ".data l && qmarkTail (l.drop 4)

/-- Scan for a split point `(.*) or (.*)\?$`: try `" or "` at every
position, moving only across newline-free characters (the first `(.*)`
cannot cross a newline). -/
def ccScan : List Char → Bool
  | [] => false
  | c :: rest => ccAfterOr (c :: rest) || (c != '\n' && ccScan rest)

/-- `re.search` of the closed-choice pattern against `text`. -/
def closedChoiceMatch (text : String) : Bool :=
  let l := text.data.map Char.toLower
  whWordsCC.any (fun w =>
    isPrefixL (w.data ++ [' ']) l && ccScan (l.drop (w.data.length + 1)))

/-- The rule body: on a match, one issue and one logged diagnostic;
`total_inspected` is incremented by the caller (`lint_fulfillment_type`),
not here.  The voice-agent/enable gating lives in `lint_agent_responses`
and is the premise under which the rule is invoked. -/
def closed_choice_alternative_rule (text : String) (stats : LintStats) :
    LintStats × List String :=
  if closedChoiceMatch text then
    ({ stats with total_issues := stats.total_issues + 1 },
     ["R001: Closed-Choice Alternative Missing Intermediate `?` (A? or B.)"])
  else
    (stats, [])

/-! ## Intent rules (`rules/intents.py`) -/

/-- `IntentRules.check_if_head_intent`: `"head" in intent.display_name`. -/
def check_if_head_intent (display_name : String) : Bool :=
  strContains display_name "head"

/-- `IntentRules.min_tps_head_intent` (lines 100–131): always inspects
once; a head intent below 50 training phrases, or otherwise any intent
below 20, yields one issue and one diagnostic carrying the language code
and the actual/required counts. -/
def min_tps_head_intent (display_name lang_code : String)
    (tps : List String) (stats : LintStats) : LintStats × List String :=
  let n_tps := tps.length
  let stats1 := { stats with total_inspected := stats.total_inspected + 1 }
  if check_if_head_intent display_name = true ∧ n_tps < 50 then
    ({ stats1 with total_issues := stats1.total_issues + 1 },
     ["R005: Head Intent Does Not Have Minimum Training Phrases." ++
       ": " ++ lang_code ++ " : (" ++ toString n_tps ++ " / 50)"])
  else if n_tps < 20 then
    ({ stats1 with total_issues := stats1.total_issues + 1 },
     ["R005: Intent Does Not Have Minimum Training Phrases." ++
       ": " ++ lang_code ++ " : (" ++ toString n_tps ++ " / 20)"])
  else
    (stats1, [])

/-- `IntentRules.intent_missing_metadata` (lines 44–69): one inspection,
one issue, one `R010` diagnostic. -/
def intent_missing_metadata (stats : LintStats) : LintStats × List String :=
  ({ stats with
      total_inspected := stats.total_inspected + 1
      total_issues := stats.total_issues + 1 },
   ["R010: Missing Metadata file for Intent"])

/-- `IntentRules.missing_training_phrases`: one inspection, one issue, one
`R004` diagnostic (rule enabled by default). -/
def missing_training_phrases (stats : LintStats) : LintStats × List String :=
  ({ stats with
      total_inspected := stats.total_inspected + 1
      total_issues := stats.total_issues + 1 },
   ["R004: Intent is Missing Training Phrases."])

/-! ## The intents pass (`resources/intents.py`)

An intent directory, reduced to the fields the pass reads: the display
name, the include/exclude filter outcome, whether the
`<intent_dir>/<display_name>.json` metadata file exists (its `open` raises
`FileNotFoundError` otherwise), and the optional `trainingPhrases`
directory as a list of `(language code, phrase list)` files in iteration
order.  Language-code filtering is modelled in its default disabled state,
and all rules are enabled (`disable_map` defaults). -/

structure IntentRes where
  display_name : String
  filtered : Bool
  metadata_exists : Bool
  tp_dir : Option (List (String × List String))

/-- `Intents.lint_intent_metadata` (lines 133–151): opening a present
metadata file runs no rule (a `TODO` in the source); a missing file is
caught as `FileNotFoundError` and handed to `intent_missing_metadata`. -/
def lint_intent_metadata (i : IntentRes) (stats : LintStats) :
    LintStats × List String :=
  if i.metadata_exists then (stats, []) else intent_missing_metadata stats

/-- `Intents.lint_language_codes` with the default (absent) language-code
filter: every language file is opened and `run_training_phrase_rules`
(which runs `min_tps_head_intent`) is applied. -/
def lint_language_codes (i : IntentRes) (langs : List (String × List String))
    (stats : LintStats) : LintStats × List String :=
  langs.foldl
    (fun acc lc =>
      let r := min_tps_head_intent i.display_name lc.1 lc.2 acc.1
      (r.1, acc.2 ++ r.2))
    (stats, [])

/-- `Intents.lint_training_phrases`: a present `trainingPhrases` directory
is linted per language code; an absent one yields the `R004` rule. -/
def lint_training_phrases (i : IntentRes) (stats : LintStats) :
    LintStats × List String :=
  match i.tp_dir with
  | some langs => lint_language_codes i langs stats
  | none => missing_training_phrases stats

/-- `Intents.lint_intent`: a non-filtered intent counts once, then the
metadata pass runs, then the training-phrase pass. -/
def lint_intent (i : IntentRes) (stats : LintStats) : LintStats × List String :=
  if i.filtered then (stats, [])
  else
    let st0 := { stats with total_intents := stats.total_intents + 1 }
    let r1 := lint_intent_metadata i st0
    let r2 := lint_training_phrases i r1.1
    (r2.1, r1.2 ++ r2.2)

/-- The loop of `Intents.lint_intents_directory` over all intent
directories, threading the stats and accumulating diagnostics. -/
def lint_intents_list : List IntentRes → LintStats → List String →
    LintStats × List String
  | [], st, ds => (st, ds)
  | i :: rest, st, ds =>
    let r := lint_intent i st
    lint_intents_list rest r.1 (ds ++ r.2)

/-! ## Test-case rule `R007` (`rules/test_cases.py` lines 34–56 and
`resources/test_cases.py` lines 137–146) -/

/-- One entry of `tc.intent_data`: a conversation turn that recorded both
a triggered intent and a literal user utterance
(`get_test_case_intent_phrase_pair` only emits such turns), with the
training phrases attached by `gather_intent_tps`. -/
structure IntentPairM where
  intent : String
  user_utterance : String
  training_phrases : List String
  deriving DecidableEq

/-- `TestCases.flatten_tp_data`: each training phrase proto is flattened
to the concatenation of its parts' texts, each lowercased. -/
def flatten_tp_data (tpData : List (List String)) : List String :=
  tpData.map (fun parts => String.join (parts.map strLower))

/-- The loop of `TestCaseRules.explicit_tps_in_tcs`: every pair is
inspected once; a pair whose utterance is not literally among its training
phrases yields one issue and one `R007` diagnostic. -/
def explicit_tps_go : List IntentPairM → LintStats → List String →
    LintStats × List String
  | [], st, ds => (st, ds)
  | pr :: rest, st, ds =>
    let st1 := { st with total_inspected := st.total_inspected + 1 }
    if pr.user_utterance ∈ pr.training_phrases then
      explicit_tps_go rest st1 ds
    else
      explicit_tps_go rest { st1 with total_issues := st1.total_issues + 1 }
        (ds ++ ["R007: Explicit Training Phrase Not in Test Case" ++
          ": [Utterance: " ++ pr.user_utterance ++ " | Intent: " ++
          pr.intent ++ "]"])

/-- `TestCaseRules.explicit_tps_in_tcs`. -/
def explicit_tps_in_tcs (pairs : List IntentPairM) (stats : LintStats) :
    LintStats × List String :=
  explicit_tps_go pairs stats []

/-! ## Elementary lemmas about the edge model -/

lemma succsE_mem {E : List (Node × Node)} {p b : Node} :
    b ∈ succsE E p ↔ (p, b) ∈ E := by
  unfold succsE
  simp only [List.mem_map, List.mem_filter, beq_iff_eq]
  constructor
  · rintro ⟨⟨a, c⟩, ⟨hmem, h1⟩, h2⟩
    simp only at h1 h2
    subst h1; subst h2; exact hmem
  · intro h
    exact ⟨(p, b), ⟨h, rfl⟩, rfl⟩

lemma hasKeyE_eq_false {E : List (Node × Node)} {p : Node} :
    hasKeyE E p = false ↔ ∀ b, (p, b) ∉ E := by
  unfold hasKeyE
  simp only [List.any_eq_false, beq_iff_eq]
  constructor
  · intro h b hb
    exact absurd rfl (h (p, b) hb)
  · rintro h ⟨a, b⟩ hab hup
    simp only at hup
    subst hup
    exact h b hab

lemma mem_targetsF {E : List (Node × Node)} {a b : Node}
    (h : (a, b) ∈ E) : b ∈ targetsF E := by
  unfold targetsF
  simp only [List.mem_toFinset, List.mem_map]
  exact ⟨(a, b), h, rfl⟩

lemma succs_sub_targets {E : List (Node × Node)} {p b : Node}
    (h : b ∈ succsE E p) : b ∈ targetsF E :=
  mem_targetsF (succsE_mem.mp h)

lemma card_sdiff_insert {E : List (Node × Node)} {s : Node} {v : Finset Node}
    (hs : s ∈ targetsF E) (hv : s ∉ v) :
    (targetsF E \ insert s v).card + 1 = (targetsF E \ v).card := by
  rw [Finset.sdiff_insert,
    Finset.card_erase_of_mem (Finset.mem_sdiff.mpr ⟨hs, hv⟩)]
  have : 0 < (targetsF E \ v).card :=
    Finset.card_pos.mpr ⟨s, Finset.mem_sdiff.mpr ⟨hs, hv⟩⟩
  omega

lemma card_sdiff_mono {E : List (Node × Node)} {v w : Finset Node} (h : v ⊆ w) :
    (targetsF E \ w).card ≤ (targetsF E \ v).card :=
  Finset.card_le_card (Finset.sdiff_subset_sdiff (le_refl _) h)

lemma recurse_edges_succ {E : List (Node × Node)} {f : Nat} {p : Node}
    {d v : Finset Node} :
    recurse_edges E (f + 1) p d v =
      if hasKeyE E p then recurse_list_go (recurse_edges E f) (succsE E p) d v
      else (insert p d, v) := rfl

lemma recurse_list_go_nil
    {f : Node → Finset Node → Finset Node → Finset Node × Finset Node}
    {d v : Finset Node} : recurse_list_go f [] d v = (d, v) := rfl

lemma recurse_list_go_cons
    {f : Node → Finset Node → Finset Node → Finset Node × Finset Node}
    {s : Node} {rest : List Node} {d v : Finset Node} :
    recurse_list_go f (s :: rest) d v =
      if s ∈ v then recurse_list_go f rest d v
      else recurse_list_go f rest (f s d (insert s v)).1 (f s d (insert s v)).2 :=
  rfl

lemma recurse_list_go_all_mem
    {f : Node → Finset Node → Finset Node → Finset Node × Finset Node}
    {l : List Node} {d v : Finset Node} (h : ∀ s ∈ l, s ∈ v) :
    recurse_list_go f l d v = (d, v) := by
  induction l with
  | nil => rfl
  | cons s rest ih =>
    rw [recurse_list_go_cons, if_pos (h s (List.mem_cons_self s rest))]
    exact ih (fun t ht => h t (List.mem_cons_of_mem s ht))

/-! ## Postconditions of the traversal -/

lemma listPost_of_skip {E : List (Node × Node)} {l : List Node}
    {d v : Finset Node} (h : ∀ s ∈ l, s ∈ v) :
    ListPost E l d v (d, v) :=
  ⟨Finset.Subset.refl v, h,
   fun _ hx hxv => absurd hx hxv,
   fun _ => ⟨Or.inl,
     fun hc => hc.elim id (fun hy => absurd hy.1 hy.2.1)⟩,
   fun _ hx hxv => absurd hx hxv⟩

/-- The main invariant of the traversal, proved for every fuel at least the
`dfsFuelFrom` bound, by induction on the fuel with an inner induction on
the successor list. -/
theorem dfs_post (E : List (Node × Node)) : ∀ fuel : Nat,
    (∀ p d v, (targetsF E \ v).card + 1 ≤ fuel →
      DfsPost E p d v (recurse_edges E fuel p d v)) ∧
    (∀ l d v, (∀ s ∈ l, s ∈ targetsF E) → (targetsF E \ v).card ≤ fuel →
      ListPost E l d v (recurse_list_go (recurse_edges E fuel) l d v)) := by
  intro fuel
  induction fuel with
  | zero =>
    refine ⟨fun p d v hf => absurd hf (by omega), fun l d v hl hf => ?_⟩
    have hall : ∀ s ∈ l, s ∈ v := by
      intro s hs
      by_contra hsv
      have hmem : s ∈ targetsF E \ v := Finset.mem_sdiff.mpr ⟨hl s hs, hsv⟩
      have : 0 < (targetsF E \ v).card := Finset.card_pos.mpr ⟨s, hmem⟩
      omega
    rw [recurse_list_go_all_mem hall]
    exact listPost_of_skip hall
  | succ f ih =>
    have hrec : ∀ p d v, (targetsF E \ v).card + 1 ≤ f + 1 →
        DfsPost E p d v (recurse_edges E (f + 1) p d v) := by
      intro p d v hf
      rw [recurse_edges_succ]
      by_cases hk : hasKeyE E p = true
      · rw [if_pos hk]
        obtain ⟨q1, q2, q3, q4, q5⟩ :=
          ih.2 (succsE E p) d v (fun s hs => succs_sub_targets hs) (by omega)
        refine ⟨q1, fun b hb => q2 b (succsE_mem.mpr hb), q3, fun x => ?_, q5⟩
        rw [q4 x]
        constructor
        · rintro (h | ⟨h1, h2, h3⟩)
          · exact Or.inl h
          · exact Or.inr ⟨Or.inr ⟨h1, h2⟩, h3⟩
        · rintro (h | ⟨(rfl | ⟨h1, h2⟩), h3⟩)
          · exact Or.inl h
          · rw [h3] at hk; exact absurd hk (by simp)
          · exact Or.inr ⟨h1, h2, h3⟩
      · rw [if_neg hk]
        have hkf : hasKeyE E p = false := by
          cases h : hasKeyE E p
          · rfl
          · exact absurd h hk
        refine ⟨Finset.Subset.refl v, ?_, ?_, ?_, ?_⟩
        · intro b hb
          exact absurd hb (hasKeyE_eq_false.mp hkf b)
        · intro x hx hxv
          exact absurd hx hxv
        · intro x
          simp only [Finset.mem_insert]
          constructor
          · rintro (rfl | h)
            · exact Or.inr ⟨Or.inl rfl, hkf⟩
            · exact Or.inl h
          · rintro (h | ⟨(rfl | ⟨h1, h2⟩), _⟩)
            · exact Or.inr h
            · exact Or.inl rfl
            · exact absurd h1 h2
        · intro x hx hxv
          exact absurd hx hxv
    refine ⟨hrec, ?_⟩
    intro l
    induction l with
    | nil =>
      intro d v _ _
      rw [recurse_list_go_nil]
      exact listPost_of_skip (fun s hs => absurd hs (List.not_mem_nil s))
    | cons s rest ihl =>
      intro d v hl hf
      rw [recurse_list_go_cons]
      by_cases hs : s ∈ v
      · rw [if_pos hs]
        obtain ⟨q1, q2, q3, q4, q5⟩ :=
          ihl d v (fun t ht => hl t (List.mem_cons_of_mem s ht)) hf
        refine ⟨q1, ?_, q3, q4, q5⟩
        intro t ht
        rcases List.mem_cons.mp ht with rfl | ht'
        · exact q1 hs
        · exact q2 t ht'
      · rw [if_neg hs]
        have hst : s ∈ targetsF E := hl s (List.mem_cons_self s rest)
        have hcard : (targetsF E \ insert s v).card + 1 = (targetsF E \ v).card :=
          card_sdiff_insert hst hs
        obtain ⟨p1, p2, p3, p4, p5⟩ := hrec s d (insert s v) (by omega)
        have hvr : v ⊆ (recurse_edges E (f + 1) s d (insert s v)).2 :=
          fun x hx => p1 (Finset.mem_insert_of_mem hx)
        have hsr : s ∈ (recurse_edges E (f + 1) s d (insert s v)).2 :=
          p1 (Finset.mem_insert_self s v)
        obtain ⟨q1, q2, q3, q4, q5⟩ :=
          ihl (recurse_edges E (f + 1) s d (insert s v)).1
            (recurse_edges E (f + 1) s d (insert s v)).2
            (fun t ht => hl t (List.mem_cons_of_mem s ht))
            (by
              have h1 := card_sdiff_mono (E := E) p1
              omega)
        refine ⟨Finset.Subset.trans hvr q1, ?_, ?_, ?_, ?_⟩
        · intro t ht
          rcases List.mem_cons.mp ht with rfl | ht'
          · exact q1 hsr
          · exact q2 t ht'
        · intro x hx hxv b hb
          by_cases hxr : x ∈ (recurse_edges E (f + 1) s d (insert s v)).2
          · by_cases hxi : x ∈ insert s v
            · rcases Finset.mem_insert.mp hxi with rfl | hxv'
              · exact q1 (p2 b hb)
              · exact absurd hxv' hxv
            · exact q1 (p3 x hxr hxi b hb)
          · exact q3 x hx hxr b hb
        · intro x
          rw [q4 x, p4 x]
          constructor
          · rintro ((h | ⟨(rfl | ⟨h1, h2⟩), h3⟩) | ⟨h1, h2, h3⟩)
            · exact Or.inl h
            · exact Or.inr ⟨q1 hsr, hs, h3⟩
            · refine Or.inr ⟨q1 h1, ?_, h3⟩
              intro hxv
              exact h2 (Finset.mem_insert_of_mem hxv)
            · refine Or.inr ⟨h1, ?_, h3⟩
              intro hxv
              exact h2 (hvr hxv)
          · rintro (h | ⟨h1, h2, h3⟩)
            · exact Or.inl (Or.inl h)
            · by_cases hxr : x ∈ (recurse_edges E (f + 1) s d (insert s v)).2
              · by_cases hxi : x ∈ insert s v
                · rcases Finset.mem_insert.mp hxi with rfl | hxv'
                  · exact Or.inl (Or.inr ⟨Or.inl rfl, h3⟩)
                  · exact absurd hxv' h2
                · exact Or.inl (Or.inr ⟨Or.inr ⟨hxr, hxi⟩, h3⟩)
              · exact Or.inr ⟨h1, hxr, h3⟩
        · intro x hx hxv
          by_cases hxr : x ∈ (recurse_edges E (f + 1) s d (insert s v)).2
          · by_cases hxi : x ∈ insert s v
            · rcases Finset.mem_insert.mp hxi with rfl | hxv'
              · exact hst
              · exact absurd hxv' hxv
            · exact p5 x hxr hxi
          · exact q5 x hx hxr

/-- Every node the traversal ever visits satisfies any property `R` that
holds of the initial visited set and of every successor of the root page
and is preserved along edges. -/
theorem dfs_sound (E : List (Node × Node)) (R : Node → Prop)
    (hR : ∀ a b, R a → (a, b) ∈ E → R b) : ∀ fuel : Nat,
    (∀ p d v, (∀ b, (p, b) ∈ E → R b) → (∀ x ∈ v, R x) →
      ∀ x ∈ (recurse_edges E fuel p d v).2, R x) ∧
    (∀ l d v, (∀ s ∈ l, R s) → (∀ x ∈ v, R x) →
      ∀ x ∈ (recurse_list_go (recurse_edges E fuel) l d v).2, R x) := by
  intro fuel
  induction fuel with
  | zero =>
    have hbase : ∀ (p : Node) (d v : Finset Node), (∀ b, (p, b) ∈ E → R b) →
        (∀ x ∈ v, R x) → ∀ x ∈ (recurse_edges E 0 p d v).2, R x :=
      fun p d v _ hv => hv
    refine ⟨hbase, ?_⟩
    intro l
    induction l with
    | nil => intro d v _ hv; exact hv
    | cons s rest ihl =>
      intro d v hl hv
      rw [recurse_list_go_cons]
      by_cases hs : s ∈ v
      · rw [if_pos hs]
        exact ihl d v (fun t ht => hl t (List.mem_cons_of_mem s ht)) hv
      · rw [if_neg hs]
        have hRs : R s := hl s (List.mem_cons_self s rest)
        have hv' : ∀ x ∈ insert s v, R x := by
          intro x hx
          rcases Finset.mem_insert.mp hx with rfl | hx'
          · exact hRs
          · exact hv x hx'
        exact ihl _ _ (fun t ht => hl t (List.mem_cons_of_mem s ht))
          (hbase s d (insert s v) (fun b hb => hR s b hRs hb) hv')
  | succ f ih =>
    have hrec : ∀ (p : Node) (d v : Finset Node), (∀ b, (p, b) ∈ E → R b) →
        (∀ x ∈ v, R x) → ∀ x ∈ (recurse_edges E (f + 1) p d v).2, R x := by
      intro p d v hp hv
      rw [recurse_edges_succ]
      by_cases hk : hasKeyE E p = true
      · rw [if_pos hk]
        exact ih.2 (succsE E p) d v (fun s hs => hp s (succsE_mem.mp hs)) hv
      · rw [if_neg hk]
        exact hv
    refine ⟨hrec, ?_⟩
    intro l
    induction l with
    | nil => intro d v _ hv; exact hv
    | cons s rest ihl =>
      intro d v hl hv
      rw [recurse_list_go_cons]
      by_cases hs : s ∈ v
      · rw [if_pos hs]
        exact ihl d v (fun t ht => hl t (List.mem_cons_of_mem s ht)) hv
      · rw [if_neg hs]
        have hRs : R s := hl s (List.mem_cons_self s rest)
        have hv' : ∀ x ∈ insert s v, R x := by
          intro x hx
          rcases Finset.mem_insert.mp hx with rfl | hx'
          · exact hRs
          · exact hv x hx'
        exact ihl _ _ (fun t ht => hl t (List.mem_cons_of_mem s ht))
          (hrec s d (insert s v) (fun b hb => hR s b hRs hb) hv')

/-- One-step fuel stabilisation: past the `dfsFuelFrom` bound, adding one
unit of fuel never changes the result. -/
theorem dfs_stable (E : List (Node × Node)) : ∀ fuel : Nat,
    (∀ p d v, (targetsF E \ v).card + 1 ≤ fuel →
      recurse_edges E fuel p d v = recurse_edges E (fuel + 1) p d v) ∧
    (∀ l d v, (∀ s ∈ l, s ∈ targetsF E) → (targetsF E \ v).card ≤ fuel →
      recurse_list_go (recurse_edges E fuel) l d v =
        recurse_list_go (recurse_edges E (fuel + 1)) l d v) := by
  intro fuel
  induction fuel with
  | zero =>
    refine ⟨fun p d v hf => absurd hf (by omega), fun l d v hl hf => ?_⟩
    have hall : ∀ s ∈ l, s ∈ v := by
      intro s hs
      by_contra hsv
      have hmem : s ∈ targetsF E \ v := Finset.mem_sdiff.mpr ⟨hl s hs, hsv⟩
      have : 0 < (targetsF E \ v).card := Finset.card_pos.mpr ⟨s, hmem⟩
      omega
    rw [recurse_list_go_all_mem hall, recurse_list_go_all_mem hall]
  | succ f ih =>
    have hrec : ∀ (p : Node) (d v : Finset Node),
        (targetsF E \ v).card + 1 ≤ f + 1 →
        recurse_edges E (f + 1) p d v = recurse_edges E (f + 2) p d v := by
      intro p d v hf
      rw [recurse_edges_succ, recurse_edges_succ]
      by_cases hk : hasKeyE E p = true
      · rw [if_pos hk, if_pos hk]
        exact ih.2 (succsE E p) d v (fun s hs => succs_sub_targets hs) (by omega)
      · rw [if_neg hk, if_neg hk]
    refine ⟨hrec, ?_⟩
    intro l
    induction l with
    | nil => intro d v _ _; rw [recurse_list_go_nil, recurse_list_go_nil]
    | cons s rest ihl =>
      intro d v hl hf
      rw [recurse_list_go_cons, recurse_list_go_cons]
      by_cases hs : s ∈ v
      · rw [if_pos hs, if_pos hs]
        exact ihl d v (fun t ht => hl t (List.mem_cons_of_mem s ht)) hf
      · rw [if_neg hs, if_neg hs]
        have hst : s ∈ targetsF E := hl s (List.mem_cons_self s rest)
        have hcard : (targetsF E \ insert s v).card + 1 = (targetsF E \ v).card :=
          card_sdiff_insert hst hs
        have heq : recurse_edges E (f + 1) s d (insert s v) =
            recurse_edges E (f + 2) s d (insert s v) :=
          hrec s d (insert s v) (by omega)
        rw [← heq]
        have hmono : insert s v ⊆ (recurse_edges E (f + 1) s d (insert s v)).2 :=
          ((dfs_post E (f + 1)).1 s d (insert s v) (by omega)).1
        have hcard2 :
            (targetsF E \ (recurse_edges E (f + 1) s d (insert s v)).2).card
              ≤ f + 1 := by
          have h1 := card_sdiff_mono (E := E) hmono
          omega
        exact ihl _ _ (fun t ht => hl t (List.mem_cons_of_mem s ht)) hcard2

/-- Iterated stabilisation: any fuel at least `dfsFuelFrom E v` gives the
same result as the bound itself; the fuelled approximations of the Python
recursion reach a fixed point, i.e. the recursion terminates. -/
theorem recurse_edges_stable_at (E : List (Node × Node)) (p : Node)
    (d v : Finset Node) (fuel : Nat) (hf : dfsFuelFrom E v ≤ fuel) :
    recurse_edges E fuel p d v = recurse_edges E (dfsFuelFrom E v) p d v := by
  unfold dfsFuelFrom at hf ⊢
  induction fuel with
  | zero => omega
  | succ f ihf =>
    by_cases h : (targetsF E \ v).card + 1 ≤ f
    · rw [← (dfs_stable E f).1 p d v h]
      exact ihf h
    · have : (targetsF E \ v).card + 1 = f + 1 := by omega
      rw [this]

/-! ## The limit run from `"Start Page"` and its characterisation -/

lemma dfsRun_post (E : List (Node × Node)) :
    DfsPost E "Start Page" ∅ ∅ (dfsRun E) := by
  refine (dfs_post E (dfsFuelFrom E ∅)).1 "Start Page" ∅ ∅ ?_
  unfold dfsFuelFrom
  omega

/-- The visited set computed by the traversal is exactly the set of nodes
reachable from `"Start Page"` by a non-empty walk of edges. -/
theorem dfsRun_visited_iff (E : List (Node × Node)) (x : Node) :
    x ∈ (dfsRun E).2 ↔ Relation.TransGen (EdgeRel E) "Start Page" x := by
  constructor
  · intro hx
    exact (dfs_sound E (Relation.TransGen (EdgeRel E) "Start Page")
        (fun a b ha hab => Relation.TransGen.tail ha hab)
        (dfsFuelFrom E ∅)).1 "Start Page" ∅ ∅
        (fun b hb => Relation.TransGen.single hb)
        (fun y hy => absurd hy (Finset.not_mem_empty y)) x hx
  · intro hx
    obtain ⟨_, p2, p3, _, _⟩ := dfsRun_post E
    induction hx with
    | single hb => exact p2 _ hb
    | tail _ hb ih => exact p3 _ ih (Finset.not_mem_empty _) _ hb

/-- The raw dangling set computed by the traversal: the examined nodes
(`"Start Page"` itself plus every visited node) that have no outgoing
edge. -/
theorem dfsRun_dangling_iff (E : List (Node × Node)) (x : Node) :
    x ∈ (dfsRun E).1 ↔
      (x = "Start Page" ∨ Relation.TransGen (EdgeRel E) "Start Page" x) ∧
        hasKeyE E x = false := by
  obtain ⟨_, _, _, p4, _⟩ := dfsRun_post E
  rw [p4 x]
  simp only [Finset.not_mem_empty, false_or, not_false_iff, and_true]
  rw [dfsRun_visited_iff]

/-! ## Wiring invariants -/

lemma mem_foldl_erase (l : List Node) :
    ∀ (s : Finset Node) (x : Node),
      (x ∈ l.foldl (fun t p => t.erase p) s) ↔ (x ∈ s ∧ x ∉ l) := by
  induction l with
  | nil => simp
  | cons a as ih =>
    intro s x
    rw [List.foldl_cons, ih]
    simp only [Finset.mem_erase, List.mem_cons]
    constructor
    · rintro ⟨⟨hne, hs⟩, has⟩
      exact ⟨hs, by rintro (rfl | h) <;> [exact hne rfl; exact has h]⟩
    · rintro ⟨hs, hn⟩
      exact ⟨⟨fun he => hn (Or.inl he), hs⟩, fun h => hn (Or.inr h)⟩

lemma mem_discardSpecial {s : Finset Node} {x : Node} :
    x ∈ discardSpecial s ↔ x ∈ s ∧ x ∉ specialPagesList :=
  mem_foldl_erase specialPagesList s x

/-- `set_route_targets` preserves the invariant that every edge target is a
used node: each `add_edge` is paired with the `add_used_node` of its
target. -/
lemma set_route_targets_inv {g : Graph}
    (hg : ∀ a b, (a, b) ∈ g.edges → b ∈ g.used_nodes) (r : RouteData) :
    ∀ a b, (a, b) ∈ (set_route_targets g r).edges →
      b ∈ (set_route_targets g r).used_nodes := by
  unfold set_route_targets
  cases hp : truthy r.targetPage with
  | none =>
    cases hf : truthy r.targetFlow with
    | none => exact hg
    | some fl =>
      intro a b hb
      simp only [Graph.add_edge, Graph.add_used_node, List.mem_append,
        List.mem_singleton, Prod.mk.injEq] at hb ⊢
      rcases hb with hb | ⟨_, rfl⟩
      · exact Finset.mem_insert_of_mem (hg a b hb)
      · exact Finset.mem_insert_self _ _
  | some t =>
    cases hf : truthy r.targetFlow with
    | none =>
      intro a b hb
      simp only [Graph.add_edge, Graph.add_used_node, List.mem_append,
        List.mem_singleton, Prod.mk.injEq] at hb ⊢
      rcases hb with hb | ⟨_, rfl⟩
      · exact Finset.mem_insert_of_mem (hg a b hb)
      · exact Finset.mem_insert_self _ _
    | some fl =>
      intro a b hb
      simp only [Graph.add_edge, Graph.add_used_node, List.mem_append,
        List.mem_singleton, Prod.mk.injEq] at hb ⊢
      rcases hb with (hb | ⟨_, rfl⟩) | ⟨_, rfl⟩
      · exact Finset.mem_insert_of_mem (Finset.mem_insert_of_mem (hg a b hb))
      · exact Finset.mem_insert_of_mem (Finset.mem_insert_self _ _)
      · exact Finset.mem_insert_self _ _

lemma set_route_targets_used_mono {g : Graph} (r : RouteData) :
    g.used_nodes ⊆ (set_route_targets g r).used_nodes := by
  unfold set_route_targets
  cases truthy r.targetPage with
  | none =>
    cases truthy r.targetFlow with
    | none => exact Finset.Subset.refl _
    | some fl => exact fun x hx => Finset.mem_insert_of_mem hx
  | some t =>
    cases truthy r.targetFlow with
    | none => exact fun x hx => Finset.mem_insert_of_mem hx
    | some fl =>
      exact fun x hx => Finset.mem_insert_of_mem (Finset.mem_insert_of_mem hx)

lemma foldl_wire_inv : ∀ (routes : List RouteData) (g : Graph),
    (∀ a b, (a, b) ∈ g.edges → b ∈ g.used_nodes) →
    ∀ a b, (a, b) ∈ (routes.foldl set_route_targets g).edges →
      b ∈ (routes.foldl set_route_targets g).used_nodes := by
  intro routes
  induction routes with
  | nil => exact fun g hg => hg
  | cons r rest ih =>
    intro g hg
    exact ih (set_route_targets g r) (set_route_targets_inv hg r)

lemma foldl_wire_used_mono : ∀ (routes : List RouteData) (g : Graph),
    g.used_nodes ⊆ (routes.foldl set_route_targets g).used_nodes := by
  intro routes
  induction routes with
  | nil => exact fun g => Finset.Subset.refl _
  | cons r rest ih =>
    intro g
    exact Finset.Subset.trans (set_route_targets_used_mono r)
      (ih (set_route_targets g r))

lemma set_route_targets_tag_used {g : Graph} {r : RouteData} {fl : String}
    (hf : truthy r.targetFlow = some fl) :
    ("FLOW: " ++ fl) ∈ (set_route_targets g r).used_nodes := by
  unfold set_route_targets
  rw [hf]
  cases truthy r.targetPage with
  | none => exact Finset.mem_insert_self _ _
  | some t => exact Finset.mem_insert_self _ _

lemma foldl_wire_tags_used : ∀ (routes : List RouteData) (g : Graph),
    ∀ t ∈ flowTags routes, t ∈ (routes.foldl set_route_targets g).used_nodes := by
  intro routes
  induction routes with
  | nil => intro g t ht; simp [flowTags] at ht
  | cons r rest ih =>
    intro g t ht
    unfold flowTags at ht
    rw [List.filterMap_cons] at ht
    cases hf : (truthy r.targetFlow).map (fun f => "FLOW: " ++ f) with
    | none =>
      rw [hf] at ht
      exact ih (set_route_targets g r) t ht
    | some tag =>
      rw [hf] at ht
      rw [List.toFinset_cons, Finset.mem_insert] at ht
      rcases ht with rfl | ht'
      · obtain ⟨fl, hfl, rfl⟩ := Option.map_eq_some'.mp hf
        exact foldl_wire_used_mono rest (set_route_targets g r)
          (set_route_targets_tag_used hfl)
      · exact ih (set_route_targets g r) t ht'

lemma foldl_add_node_edges (pages : List Node) :
    ∀ g : Graph, (pages.foldl (fun g p => g.add_node p) g).edges = g.edges := by
  induction pages with
  | nil => intro g; rfl
  | cons p rest ih => intro g; exact ih (g.add_node p)

/-- In a wired flow every edge target is a used node: edges are only added
by `set_route_targets`, which pairs each `add_edge` with `add_used_node`. -/
lemma wireFlow_edge_target_used {pages : List Node} {routes : List RouteData}
    {a b : Node} (h : (a, b) ∈ (wireFlow pages routes).graph.edges) :
    b ∈ (wireFlow pages routes).graph.used_nodes := by
  refine foldl_wire_inv routes _ ?_ a b h
  intro x y hxy
  rw [foldl_add_node_edges] at hxy
  exact absurd hxy (List.not_mem_nil (x, y))

/-- In a wired flow every cross-flow tag created by some route is a used
node. -/
lemma wireFlow_tag_used {pages : List Node} {routes : List RouteData}
    {t : Node} (h : t ∈ flowTags routes) :
    t ∈ (wireFlow pages routes).graph.used_nodes :=
  foldl_wire_tags_used routes _ t h

/-- Every cross-flow tag has the shape `"FLOW: " ++ name`. -/
lemma mem_flowTags_shape {routes : List RouteData} {t : Node}
    (h : t ∈ flowTags routes) : ∃ fl, t = "FLOW: " ++ fl := by
  unfold flowTags at h
  rw [List.mem_toFinset, List.mem_filterMap] at h
  obtain ⟨r, _, hr⟩ := h
  obtain ⟨fl, _, rfl⟩ := Option.map_eq_some'.mp hr
  exact ⟨fl, rfl⟩

lemma mem_targetsF_exists {E : List (Node × Node)} {x : Node}
    (h : x ∈ targetsF E) : ∃ a, (a, x) ∈ E := by
  unfold targetsF at h
  rw [List.mem_toFinset, List.mem_map] at h
  obtain ⟨⟨a, b⟩, hmem, hb⟩ := h
  simp only at hb
  subst hb
  exact ⟨a, hmem⟩

/-! ## Substring lemmas -/

lemma isPrefixL_append_of {n : List Char} :
    ∀ {h : List Char} (t : List Char),
      isPrefixL n h = true → isPrefixL n (h ++ t) = true := by
  induction n with
  | nil => intro h t _; rfl
  | cons a as ih =>
    intro h t hp
    cases h with
    | nil => exact absurd hp (by simp [isPrefixL])
    | cons b bs =>
      rw [List.cons_append]
      simp only [isPrefixL, Bool.and_eq_true] at hp ⊢
      exact ⟨hp.1, ih t hp.2⟩

lemma infixL_of_prefix {n : List Char} :
    ∀ {h : List Char}, isPrefixL n h = true → infixL n h = true := by
  intro h hp
  cases h with
  | nil => exact hp
  | cons c rest =>
    unfold infixL
    rw [hp]
    rfl

/-- A cross-flow tag always contains the substring `"FLOW"`. -/
lemma strContains_flow_tag (fl : String) :
    strContains ("FLOW: " ++ fl) "FLOW" = true := by
  unfold strContains
  rw [String.data_append]
  exact infixL_of_prefix
    (isPrefixL_append_of fl.data (by decide))

/-! ## Field projections of the analysis pipeline -/

lemma analyzeFlow_graph (f : Flow) : (analyzeFlow f).graph = f.graph := rfl

lemma analyzeFlow_all (f : Flow) :
    (analyzeFlow f).all_pages = discardSpecial f.all_pages := rfl

lemma analyzeFlow_unused (f : Flow) :
    (analyzeFlow f).unused_pages =
      (discardSpecial f.all_pages \ f.graph.used_nodes).filter
        (fun p => hasKeyE f.graph.edges p = false) := rfl

lemma wired_active_run (pages : List Node) (routes : List RouteData) :
    (analyzeFlow (wireFlow pages routes)).active_pages =
      (dfsRun (wireFlow pages routes).graph.edges).2 := rfl

lemma wired_dangling_run (pages : List Node) (routes : List RouteData) :
    (analyzeFlow (wireFlow pages routes)).dangling_pages =
      (discardSpecial (dfsRun (wireFlow pages routes).graph.edges).1).filter
        (fun p => strContains p "FLOW" = false) := rfl

/-- Membership in the final dangling set of a wired, analysed flow. -/
lemma wired_dangling_iff (pages : List Node) (routes : List RouteData)
    (x : Node) :
    x ∈ (analyzeFlow (wireFlow pages routes)).dangling_pages ↔
      Relation.ReflTransGen (EdgeRel (wireFlow pages routes).graph.edges)
          "Start Page" x ∧
        hasKeyE (wireFlow pages routes).graph.edges x = false ∧
        x ∉ specialPagesList ∧
        strContains x "FLOW" = false := by
  rw [wired_dangling_run, Finset.mem_filter, mem_discardSpecial,
    dfsRun_dangling_iff, Relation.reflTransGen_iff_eq_or_transGen]
  constructor
  · rintro ⟨⟨⟨h1, h2⟩, h3⟩, h4⟩
    exact ⟨by tauto, h2, h3, h4⟩
  · rintro ⟨h1, h2, h3, h4⟩
    exact ⟨⟨⟨by tauto, h2⟩, h3⟩, h4⟩

/-! ## Rule-engine helper lemmas -/

/-- Spec of the `explicit_tps_in_tcs` loop: one inspection per pair, one
issue and one diagnostic per pair whose utterance is not among its
training phrases. -/
lemma explicit_tps_go_spec :
    ∀ (pairs : List IntentPairM) (st : LintStats) (ds : List String),
      (explicit_tps_go pairs st ds).1.total_issues =
        st.total_issues +
          pairs.countP
            (fun pr => decide (pr.user_utterance ∉ pr.training_phrases)) ∧
      (explicit_tps_go pairs st ds).2.length =
        ds.length +
          pairs.countP
            (fun pr => decide (pr.user_utterance ∉ pr.training_phrases)) ∧
      (explicit_tps_go pairs st ds).1.total_inspected =
        st.total_inspected + pairs.length := by
  intro pairs
  induction pairs with
  | nil => intro st ds; simp [explicit_tps_go]
  | cons pr rest ih =>
    intro st ds
    by_cases hmem : pr.user_utterance ∈ pr.training_phrases
    · have hgo : explicit_tps_go (pr :: rest) st ds =
          explicit_tps_go rest
            { st with total_inspected := st.total_inspected + 1 } ds := by
        simp [explicit_tps_go, hmem]
      rw [hgo]
      obtain ⟨h1, h2, h3⟩ := ih { st with total_inspected := st.total_inspected + 1 } ds
      rw [h1, h2, h3]
      simp [List.countP_cons, hmem]
      omega
    · have hgo : explicit_tps_go (pr :: rest) st ds =
          explicit_tps_go rest
            { st with total_inspected := st.total_inspected + 1, total_issues := st.total_issues + 1 }
            (ds ++ ["R007: Explicit Training Phrase Not in Test Case" ++
              ": [Utterance: " ++ pr.user_utterance ++ " | Intent: " ++
              pr.intent ++ "]"]) := by
        simp [explicit_tps_go, hmem]
      rw [hgo]
      obtain ⟨h1, h2, h3⟩ := ih _ _
      rw [h1, h2, h3]
      simp [List.countP_cons, hmem]
      omega

/-! # Claim theorems -/

/-- **C1.** For every fully wired flow, the `active_pages` set produced by
the analyzer equals the set of pages reachable by walking edges
(a non-empty walk, so a graph with a cycle back to `"Start Page"` puts
`"Start Page"` itself in the set) from `"Start Page"`: no false positives
and no false negatives. -/
theorem claim_C1_active_pages_reachable (pages : List Node)
    (routes : List RouteData) (x : Node) :
    x ∈ (analyzeFlow (wireFlow pages routes)).active_pages ↔
      Relation.TransGen (EdgeRel (wireFlow pages routes).graph.edges)
        "Start Page" x := by
  rw [wired_active_run, dfsRun_visited_iff]

/-- **C2, counterexample.** The claim says `dangling_pages` equals the set
of pages reachable from `"Start Page"` with no outgoing edge, minus the
pseudo-pages and the cross-flow tags.  The flow
`Start Page → "WORKFLOW Done"` refutes it: `"WORKFLOW Done"` is reachable
(one edge from `"Start Page"`), has no outgoing edge, is not a pseudo-page
and is not a cross-flow tag, so per the claim it belongs to
`dangling_pages` — yet the code silently drops it, because the cross-flow
cleanup removes every page containing the substring `"FLOW"` and
`"WORKFLOW"` contains `"FLOW"`. -/
theorem claim_C2_dangling_counterexample :
    (("Start Page", "WORKFLOW Done") ∈ (wireFlow ["WORKFLOW Done"]
        [⟨"Start Page", some "WORKFLOW Done", none⟩]).graph.edges ∧
      hasKeyE (wireFlow ["WORKFLOW Done"]
          [⟨"Start Page", some "WORKFLOW Done", none⟩]).graph.edges
          "WORKFLOW Done" = false ∧
      "WORKFLOW Done" ∉ specialPagesList ∧
      "WORKFLOW Done" ∉ flowTags [⟨"Start Page", some "WORKFLOW Done", none⟩] ∧
      "WORKFLOW Done" ∉ (analyzeFlow (wireFlow ["WORKFLOW Done"]
        [⟨"Start Page", some "WORKFLOW Done", none⟩])).dangling_pages) ∧
    ¬ (∀ x : Node,
        x ∈ (analyzeFlow (wireFlow ["WORKFLOW Done"]
            [⟨"Start Page", some "WORKFLOW Done", none⟩])).dangling_pages ↔
          Relation.ReflTransGen
              (EdgeRel (wireFlow ["WORKFLOW Done"]
                [⟨"Start Page", some "WORKFLOW Done", none⟩]).graph.edges)
              "Start Page" x ∧
            hasKeyE (wireFlow ["WORKFLOW Done"]
              [⟨"Start Page", some "WORKFLOW Done", none⟩]).graph.edges x
              = false ∧
            x ∉ specialPagesList ∧
            x ∉ flowTags [⟨"Start Page", some "WORKFLOW Done", none⟩]) := by
  refine ⟨⟨by decide, by decide, by decide, by decide, by decide⟩, ?_⟩
  intro h
  have hstep : EdgeRel (wireFlow ["WORKFLOW Done"]
      [⟨"Start Page", some "WORKFLOW Done", none⟩]).graph.edges
      "Start Page" "WORKFLOW Done" := by decide
  have hmem := (h "WORKFLOW Done").mpr
    ⟨Relation.ReflTransGen.single hstep, by decide, by decide, by decide⟩
  exact absurd hmem (by decide)

/-- **C2, amended.** After analysis, `dangling_pages` equals the set of
pages reachable from `"Start Page"` that have no outgoing edge, minus the
pseudo-pages and minus every page whose display name contains the
substring `"FLOW"` (which covers all cross-flow tags, but also genuine
pages such as `"WORKFLOW Done"`); in particular, for a flow whose only
edge is `Start Page → PageA` with `PageA` terminal, `PageA` is reported in
`dangling_pages` and `active_pages` and not in `unused_pages`. -/
theorem claim_C2_dangling_characterisation :
    (∀ (pages : List Node) (routes : List RouteData) (x : Node),
      x ∈ (analyzeFlow (wireFlow pages routes)).dangling_pages ↔
        Relation.ReflTransGen (EdgeRel (wireFlow pages routes).graph.edges)
            "Start Page" x ∧
          hasKeyE (wireFlow pages routes).graph.edges x = false ∧
          x ∉ specialPagesList ∧
          strContains x "FLOW" = false) ∧
    ("PageA" ∈ (analyzeFlow (wireFlow ["PageA"]
        [⟨"Start Page", some "PageA", none⟩])).dangling_pages ∧
      "PageA" ∈ (analyzeFlow (wireFlow ["PageA"]
        [⟨"Start Page", some "PageA", none⟩])).active_pages ∧
      "PageA" ∉ (analyzeFlow (wireFlow ["PageA"]
        [⟨"Start Page", some "PageA", none⟩])).unused_pages) :=
  ⟨wired_dangling_iff, by decide, by decide, by decide⟩

/-- **C3, counterexample.** The claimed invariant (`all_pages ⊇
active_pages`, `unused ∩ dangling = ∅`, and no pseudo-page / cross-flow
tag in any of the three result sets) fails on the flow with declared page
`PageB`, route `Start Page → End Flow` and route `PageB → End Session`:
`active_pages = {End Flow} ⊄ all_pages = {PageB}`, and the pseudo-page
`End Session` ends up in `orphaned_pages` (it is a used node that is
unreachable, so the symmetric difference picks it up). -/
theorem claim_C3_counterexample :
    ¬ (let fl := analyzeFlow (wireFlow ["PageB"]
          [⟨"Start Page", some "End Flow", none⟩,
           ⟨"PageB", some "End Session", none⟩])
       fl.active_pages ⊆ fl.all_pages ∧
       fl.unused_pages ∩ fl.dangling_pages = ∅ ∧
       ∀ p ∈ fl.unused_pages ∪ fl.dangling_pages ∪ fl.orphaned_pages,
         p ∉ specialPagesList ∧
         p ∉ flowTags [⟨"Start Page", some "End Flow", none⟩,
           ⟨"PageB", some "End Session", none⟩]) := by
  decide

/-- **C3, amended.** After the three passes, `unused_pages` and
`dangling_pages` are disjoint, and neither contains a pseudo-page or a
cross-flow tag created during wiring; but `all_pages` need not contain
`active_pages` (which can hold pseudo-pages, cross-flow tags and other
undeclared targets), and `orphaned_pages` can contain pseudo-pages and
cross-flow tags. -/
theorem claim_C3_result_sets_amended (pages : List Node)
    (routes : List RouteData) :
    (analyzeFlow (wireFlow pages routes)).unused_pages ∩
        (analyzeFlow (wireFlow pages routes)).dangling_pages = ∅ ∧
    (∀ p ∈ specialPagesList,
      p ∉ (analyzeFlow (wireFlow pages routes)).unused_pages ∧
      p ∉ (analyzeFlow (wireFlow pages routes)).dangling_pages) ∧
    (∀ t ∈ flowTags routes,
      t ∉ (analyzeFlow (wireFlow pages routes)).unused_pages ∧
      t ∉ (analyzeFlow (wireFlow pages routes)).dangling_pages) := by
  have hunused : ∀ x : Node,
      x ∈ (analyzeFlow (wireFlow pages routes)).unused_pages →
      (x ∈ (wireFlow pages routes).all_pages ∧ x ∉ specialPagesList) ∧
        x ∉ (wireFlow pages routes).graph.used_nodes := by
    intro x hx
    rw [analyzeFlow_unused, Finset.mem_filter, Finset.mem_sdiff,
      mem_discardSpecial] at hx
    exact ⟨hx.1.1, hx.1.2⟩
  refine ⟨?_, ?_, ?_⟩
  · rw [Finset.eq_empty_iff_forall_not_mem]
    intro x hx
    rw [Finset.mem_inter] at hx
    obtain ⟨hu, hd⟩ := hx
    obtain ⟨_, hnotused⟩ := hunused x hu
    rw [wired_dangling_iff] at hd
    obtain ⟨hreach, _, hnspec, _⟩ := hd
    have hne : x ≠ "Start Page" := by
      intro hx
      subst hx
      exact hnspec (by decide)
    rcases Relation.reflTransGen_iff_eq_or_transGen.mp hreach with rfl | htg
    · exact hne rfl
    · have hvis : x ∈ (dfsRun (wireFlow pages routes).graph.edges).2 :=
        (dfsRun_visited_iff _ x).mpr htg
      have htarget : x ∈ targetsF (wireFlow pages routes).graph.edges :=
        (dfsRun_post (wireFlow pages routes).graph.edges).2.2.2.2 x hvis
          (Finset.not_mem_empty x)
      obtain ⟨a, ha⟩ := mem_targetsF_exists htarget
      exact hnotused (wireFlow_edge_target_used ha)
  · intro p hp
    constructor
    · intro hu
      exact (hunused p hu).1.2 hp
    · intro hd
      rw [wired_dangling_iff] at hd
      exact hd.2.2.1 hp
  · intro t ht
    constructor
    · intro hu
      exact (hunused t hu).2 (wireFlow_tag_used ht)
    · intro hd
      rw [wired_dangling_iff] at hd
      obtain ⟨fl, rfl⟩ := mem_flowTags_shape ht
      have := hd.2.2.2
      rw [strContains_flow_tag] at this
      exact Bool.noConfusion this

/-- Witness for the amended C3 at a concrete flow, special page and
cross-flow tag. -/
theorem claim_C3_result_sets_amended_witness :
    "End Session" ∈ specialPagesList ∧
    "FLOW: Other" ∈ flowTags [⟨"PageB", none, some "Other"⟩] ∧
    "End Session" ∉ (analyzeFlow (wireFlow ["PageB"]
      [⟨"PageB", none, some "Other"⟩])).unused_pages ∧
    "FLOW: Other" ∉ (analyzeFlow (wireFlow ["PageB"]
      [⟨"PageB", none, some "Other"⟩])).dangling_pages :=
  ⟨by decide, by decide,
   (claim_C3_result_sets_amended ["PageB"] [⟨"PageB", none, some "Other"⟩]
      |>.2.1 "End Session" (by decide)).1,
   (claim_C3_result_sets_amended ["PageB"] [⟨"PageB", none, some "Other"⟩]
      |>.2.2 "FLOW: Other" (by decide)).2⟩

/-- **C4.** On every finite graph — cyclic graphs and cycles back to
`"Start Page"` included — the depth-first traversal terminates: because a
node is added to the visited set before the recursion descends into it, no
node is descended into twice, so the fuelled approximations of the Python
recursion stabilise from the bound `dfsFuelFrom` on; any two sufficient
fuels give the same result. -/
theorem claim_C4_recurse_edges_terminates (E : List (Node × Node))
    (d v : Finset Node) (fuel1 fuel2 : Nat)
    (h1 : dfsFuelFrom E v ≤ fuel1) (h2 : dfsFuelFrom E v ≤ fuel2) :
    recurse_edges E fuel1 "Start Page" d v =
      recurse_edges E fuel2 "Start Page" d v := by
  rw [recurse_edges_stable_at E "Start Page" d v fuel1 h1,
    recurse_edges_stable_at E "Start Page" d v fuel2 h2]

/-- Witness for C4 on a graph with a cycle back to `"Start Page"`. -/
theorem claim_C4_recurse_edges_terminates_witness :
    dfsFuelFrom [("Start Page", "PageA"), ("PageA", "Start Page")] ∅ ≤ 3 ∧
    dfsFuelFrom [("Start Page", "PageA"), ("PageA", "Start Page")] ∅ ≤ 9 ∧
    recurse_edges [("Start Page", "PageA"), ("PageA", "Start Page")] 3
        "Start Page" ∅ ∅ =
      recurse_edges [("Start Page", "PageA"), ("PageA", "Start Page")] 9
        "Start Page" ∅ ∅ :=
  ⟨by decide, by decide,
   claim_C4_recurse_edges_terminates
     [("Start Page", "PageA"), ("PageA", "Start Page")] ∅ ∅ 3 9
     (by decide) (by decide)⟩

/-- **C5.** `calculate_rating` returns `10 · (1 − issues/inspected)` for
`inspected > 0` and `10` for `inspected = 0`; under
`0 ≤ issues ≤ inspected`, `inspected > 0` the result lies in `[0, 10]`,
and the boundary identities hold. -/
theorem claim_C5_calculate_rating (issues inspected n x : Nat) :
    (0 < inspected →
      calculate_rating issues inspected =
        10 * (1 - (issues : ℚ) / (inspected : ℚ))) ∧
    (inspected = 0 → calculate_rating issues inspected = 10) ∧
    (0 < inspected → issues ≤ inspected →
      0 ≤ calculate_rating issues inspected ∧
        calculate_rating issues inspected ≤ 10) ∧
    calculate_rating 0 n = 10 ∧
    (0 < n → calculate_rating n n = 0) ∧
    calculate_rating x 0 = 10 := by
  refine ⟨?_, ?_, ?_, ?_, ?_, ?_⟩
  · intro h
    rw [calculate_rating, if_pos h]
    ring
  · intro h
    subst h
    rfl
  · intro h hle
    have hpos : (0 : ℚ) < (inspected : ℚ) := by exact_mod_cast h
    have hdiv0 : (0 : ℚ) ≤ (issues : ℚ) / (inspected : ℚ) :=
      div_nonneg (by positivity) (le_of_lt hpos)
    have hdiv1 : (issues : ℚ) / (inspected : ℚ) ≤ 1 :=
      (div_le_one hpos).mpr (by exact_mod_cast hle)
    rw [calculate_rating, if_pos h]
    constructor
    · nlinarith
    · nlinarith
  · rw [calculate_rating]
    by_cases h : 0 < n
    · rw [if_pos h]
      simp
    · rw [if_neg h]
  · intro h
    have hne : ((n : ℚ)) ≠ 0 := by
      exact_mod_cast Nat.pos_iff_ne_zero.mp h
    rw [calculate_rating, if_pos h, div_self hne]
    ring
  · rfl

/-- Witness for C5 at `issues = 1`, `inspected = 4`, `n = 2`, `x = 7`. -/
theorem claim_C5_calculate_rating_witness :
    (0 < 4 ∧ (1 : Nat) ≤ 4) ∧
    calculate_rating 1 4 = 10 * (1 - (1 : ℚ) / (4 : ℚ)) ∧
    (0 ≤ calculate_rating 1 4 ∧ calculate_rating 1 4 ≤ 10) ∧
    calculate_rating 2 2 = 0 := by
  have h := claim_C5_calculate_rating 1 4 2 7
  exact ⟨⟨by norm_num, by norm_num⟩,
    h.1 (by norm_num),
    h.2.2.1 (by norm_num) (by norm_num),
    h.2.2.2.2.1 (by norm_num)⟩

/-- **C10.** Cross-flow filtering of the dangling set tests substring
containment of `"FLOW"`, not the `"FLOW: "` tag prefix: any page whose
name contains `"FLOW"` anywhere is removed from the final dangling set, so
the reachable terminal page `"WORKFLOW Done"` is active and edge-less yet
never reported dangling. -/
theorem claim_C10_substring_flow_filter :
    (∀ (pages : List Node) (routes : List RouteData) (p : Node),
      strContains p "FLOW" = true →
      p ∉ (analyzeFlow (wireFlow pages routes)).dangling_pages) ∧
    ("WORKFLOW Done" ∈ (analyzeFlow (wireFlow ["WORKFLOW Done"]
        [⟨"Start Page", some "WORKFLOW Done", none⟩])).active_pages ∧
      hasKeyE (wireFlow ["WORKFLOW Done"]
          [⟨"Start Page", some "WORKFLOW Done", none⟩]).graph.edges
          "WORKFLOW Done" = false ∧
      "WORKFLOW Done" ∉ (analyzeFlow (wireFlow ["WORKFLOW Done"]
        [⟨"Start Page", some "WORKFLOW Done", none⟩])).dangling_pages) := by
  constructor
  · intro pages routes p hp hmem
    rw [wired_dangling_run, Finset.mem_filter] at hmem
    have h2 := hmem.2
    rw [hp] at h2
    exact Bool.noConfusion h2
  · exact ⟨by decide, by decide, by decide⟩

/-- Witness for C10 at the `"WORKFLOW Done"` flow. -/
theorem claim_C10_substring_flow_filter_witness :
    strContains "WORKFLOW Done" "FLOW" = true ∧
    "WORKFLOW Done" ∉ (analyzeFlow (wireFlow ["WORKFLOW Done"]
      [⟨"Start Page", some "WORKFLOW Done", none⟩])).dangling_pages :=
  ⟨by decide,
   claim_C10_substring_flow_filter.1 ["WORKFLOW Done"]
     [⟨"Start Page", some "WORKFLOW Done", none⟩] "WORKFLOW Done"
     (by decide)⟩

/-- **C6.** The minimum-training-phrase rule: every invocation inspects
once; a head intent (naming heuristic) under 50 phrases for the linted
language, or a non-head intent under 20, yields exactly one diagnostic
with the actual/required counts and one issue; otherwise nothing is
recorded.  In particular `"head_intent.booking"` with 30 phrases in `en`
fires with `(30 / 50)` in the message, and with 55 phrases does not
fire. -/
theorem claim_C6_min_tps_thresholds :
    (∀ (dn lc : String) (tps : List String) (st : LintStats),
      (min_tps_head_intent dn lc tps st).1.total_inspected =
        st.total_inspected + 1 ∧
      (check_if_head_intent dn = true → tps.length < 50 →
        (min_tps_head_intent dn lc tps st).1.total_issues =
            st.total_issues + 1 ∧
          (min_tps_head_intent dn lc tps st).2 =
            ["R005: Head Intent Does Not Have Minimum Training Phrases." ++
              ": " ++ lc ++ " : (" ++ toString tps.length ++ " / 50)"]) ∧
      (check_if_head_intent dn = false → tps.length < 20 →
        (min_tps_head_intent dn lc tps st).1.total_issues =
            st.total_issues + 1 ∧
          (min_tps_head_intent dn lc tps st).2 =
            ["R005: Intent Does Not Have Minimum Training Phrases." ++
              ": " ++ lc ++ " : (" ++ toString tps.length ++ " / 20)"]) ∧
      ((check_if_head_intent dn = true ∧ 50 ≤ tps.length) ∨
          (check_if_head_intent dn = false ∧ 20 ≤ tps.length) →
        (min_tps_head_intent dn lc tps st).1.total_issues =
            st.total_issues ∧
          (min_tps_head_intent dn lc tps st).2 = [])) ∧
    ((min_tps_head_intent "head_intent.booking" "en"
        (List.replicate 30 "call a cab") LintStats.init).2 =
      ["R005: Head Intent Does Not Have Minimum Training Phrases." ++
        ": en : (30 / 50)"] ∧
     (min_tps_head_intent "head_intent.booking" "en"
        (List.replicate 30 "call a cab") LintStats.init).1.total_issues = 1 ∧
     (min_tps_head_intent "head_intent.booking" "en"
        (List.replicate 55 "call a cab") LintStats.init).2 = [] ∧
     (min_tps_head_intent "head_intent.booking" "en"
        (List.replicate 55 "call a cab") LintStats.init).1.total_issues = 0) := by
  constructor
  · intro dn lc tps st
    refine ⟨?_, ?_, ?_, ?_⟩
    · unfold min_tps_head_intent
      by_cases h1 : check_if_head_intent dn = true ∧ tps.length < 50
      · rw [if_pos h1]
      · rw [if_neg h1]
        by_cases h2 : tps.length < 20
        · rw [if_pos h2]
        · rw [if_neg h2]
    · intro hh hn
      unfold min_tps_head_intent
      rw [if_pos ⟨hh, hn⟩]
      exact ⟨rfl, rfl⟩
    · intro hh hn
      unfold min_tps_head_intent
      rw [if_neg (by simp [hh]), if_pos hn]
      exact ⟨rfl, rfl⟩
    · intro hcase
      unfold min_tps_head_intent
      rcases hcase with ⟨hh, hn⟩ | ⟨hh, hn⟩
      · rw [if_neg (by simp [hh]; omega), if_neg (by omega)]
        exact ⟨rfl, rfl⟩
      · rw [if_neg (by simp [hh]), if_neg (by omega)]
        exact ⟨rfl, rfl⟩
  · refine ⟨by decide, by decide, by decide, by decide⟩

/-- Witness for C6 (its firing branches carry hypotheses), at
`"head_intent.booking"`, language `en`, 30 phrases. -/
theorem claim_C6_min_tps_thresholds_witness :
    check_if_head_intent "head_intent.booking" = true ∧
    (List.replicate 30 "call a cab").length < 50 ∧
    (min_tps_head_intent "head_intent.booking" "en"
        (List.replicate 30 "call a cab") LintStats.init).1.total_issues =
      LintStats.init.total_issues + 1 :=
  ⟨by decide, by decide,
   ((claim_C6_min_tps_thresholds.1 "head_intent.booking" "en"
      (List.replicate 30 "call a cab") LintStats.init).2.1
      (by decide) (by decide)).1⟩

/-- **C7, counterexample.** The claim says the already-disambiguated text
`"Would you like pickup, or delivery instead?"` must not trigger `R001`,
but the anchored pattern `^(What|…|Would) (.*) or (.*)\?$` still matches
it (the comma lands in the second group), so the rule fires on both
texts. -/
theorem claim_C7_counterexample :
    ¬ ((closed_choice_alternative_rule
          "Would you like pickup or delivery?"
          LintStats.init).1.total_issues = LintStats.init.total_issues + 1 ∧
       (closed_choice_alternative_rule
          "Would you like pickup, or delivery instead?"
          LintStats.init).1.total_issues = LintStats.init.total_issues) := by
  decide

/-- **C7, amended.** For a voice agent with the rule enabled, the response
text `"Would you like pickup or delivery?"` triggers `R001`, and the text
`"Would you like pickup, or delivery instead?"` *also* triggers `R001`:
the pattern only requires the question word, a `" or "` and the final
`"?"`, so the comma does not disambiguate it for the rule. -/
theorem claim_C7_closed_choice_amended (st : LintStats) :
    (closed_choice_alternative_rule
        "Would you like pickup or delivery?" st).1.total_issues =
      st.total_issues + 1 ∧
    (closed_choice_alternative_rule
        "Would you like pickup or delivery?" st).2.length = 1 ∧
    (closed_choice_alternative_rule
        "Would you like pickup, or delivery instead?" st).1.total_issues =
      st.total_issues + 1 ∧
    (closed_choice_alternative_rule
        "Would you like pickup, or delivery instead?" st).2.length = 1 := by
  have h1 : closedChoiceMatch "Would you like pickup or delivery?" = true := by
    decide
  have h2 : closedChoiceMatch
      "Would you like pickup, or delivery instead?" = true := by
    decide
  refine ⟨?_, ?_, ?_, ?_⟩ <;>
    simp [closed_choice_alternative_rule, h1, h2]

/-- **C8.** The explicit-training-phrase rule `R007`: every qualified turn
(a pair of a triggered intent and a literal user utterance) is inspected
once, and fires exactly once if and only if the utterance does not appear
verbatim (exact, case-sensitive string equality) among the intent's
training phrases as loaded by `flatten_tp_data`. -/
theorem claim_C8_explicit_tps_verbatim :
    (∀ (pairs : List IntentPairM) (st : LintStats),
      (explicit_tps_in_tcs pairs st).1.total_issues =
        st.total_issues +
          pairs.countP
            (fun pr => decide (pr.user_utterance ∉ pr.training_phrases)) ∧
      (explicit_tps_in_tcs pairs st).2.length =
        pairs.countP
          (fun pr => decide (pr.user_utterance ∉ pr.training_phrases)) ∧
      (explicit_tps_in_tcs pairs st).1.total_inspected =
        st.total_inspected + pairs.length) ∧
    (∀ (intentName utter : String) (raw : List (List String))
        (st : LintStats),
      (explicit_tps_in_tcs [⟨intentName, utter, flatten_tp_data raw⟩]
          st).1.total_issues =
        st.total_issues +
          (if utter ∈ flatten_tp_data raw then 0 else 1) ∧
      (explicit_tps_in_tcs [⟨intentName, utter, flatten_tp_data raw⟩]
          st).2.length =
        (if utter ∈ flatten_tp_data raw then 0 else 1)) := by
  constructor
  · intro pairs st
    have h := explicit_tps_go_spec pairs st []
    simpa [explicit_tps_in_tcs] using h
  · intro intentName utter raw st
    have h := explicit_tps_go_spec [⟨intentName, utter, flatten_tp_data raw⟩] st []
    rw [show explicit_tps_in_tcs [⟨intentName, utter, flatten_tp_data raw⟩] st
        = explicit_tps_go [⟨intentName, utter, flatten_tp_data raw⟩] st []
      from rfl]
    obtain ⟨h1, h2, _⟩ := h
    rw [h1, h2]
    by_cases hmem : utter ∈ flatten_tp_data raw <;>
      simp [List.countP_cons, hmem]

/-- **C9.** A non-filtered intent whose metadata file is absent is not a
fatal error: `lint_intent_metadata` lands in the `FileNotFoundError`
handler, which emits exactly one `R010` diagnostic and bumps
`total_inspected` and `total_issues` by exactly one, after which
`lint_intent` continues into the intent's training phrases and the
directory loop continues with the remaining intents. -/
theorem claim_C9_missing_metadata_recoverable (i : IntentRes)
    (rest : List IntentRes) (st : LintStats) (ds : List String)
    (hfil : i.filtered = false) (hmeta : i.metadata_exists = false) :
    lint_intent_metadata i st =
      ({ st with total_inspected := st.total_inspected + 1, total_issues := st.total_issues + 1 },
       ["R010: Missing Metadata file for Intent"]) ∧
    lint_intent i st =
      ((lint_training_phrases i
          (intent_missing_metadata
            { st with total_intents := st.total_intents + 1 }).1).1,
        "R010: Missing Metadata file for Intent" ::
          (lint_training_phrases i
            (intent_missing_metadata
              { st with total_intents := st.total_intents + 1 }).1).2) ∧
    lint_intents_list (i :: rest) st ds =
      lint_intents_list rest (lint_intent i st).1 (ds ++ (lint_intent i st).2) := by
  refine ⟨?_, ?_, ?_⟩
  · simp [lint_intent_metadata, hmeta, intent_missing_metadata]
  · simp [lint_intent, hfil, lint_intent_metadata, hmeta,
      intent_missing_metadata]
  · rfl

/-- Witness for C9 at a concrete unfiltered intent with a missing metadata
file and one training-phrase language. -/
theorem claim_C9_missing_metadata_recoverable_witness :
    (IntentRes.mk "order_pizza" false false (some [("en", ["one pizza"])])).filtered = false ∧
    (IntentRes.mk "order_pizza" false false (some [("en", ["one pizza"])])).metadata_exists = false ∧
    lint_intent_metadata
        (IntentRes.mk "order_pizza" false false (some [("en", ["one pizza"])]))
        LintStats.init =
      ({ LintStats.init with total_inspected := 1, total_issues := 1 },
       ["R010: Missing Metadata file for Intent"]) := by
  have h := claim_C9_missing_metadata_recoverable
    (IntentRes.mk "order_pizza" false false (some [("en", ["one pizza"])]))
    [] LintStats.init [] rfl rfl
  exact ⟨rfl, rfl, h.1⟩

end Cxlint
